import Mathlib

/-!
Shallow embedding of mlagents/trainers/torch/layers.py (ml-agents).

Tensors are nested lists of integers (the float entries only ever meet +, *, max and ≤ in the properties below, so any linear ordered ring models them):
* Vec — last (feature) dimension,
* Mat — a 2-D tensor,
* T3  — a 3-D tensor, e.g. a batch-first sequence (batch, time, features)
  or a memory tensor (num_layers, batch, memory_size).

The numeric kernels whose values are random at construction time (the LSTM
cell with its randomly initialized weights, the random weight initializers,
and the Swish post-processing stack built from randomly initialized linear
layers) are taken as parameters of the embedded functions; every claim here
is about the structure the Python code builds around them (splits, concats,
permutes, cumulative max, shapes), which is independent of those values.
All structural steps (torch.split, torch.cat, permute, cummax, slicing,
reshape-apply-reshape) are translated directly from the source.
-/

abbrev Vec := List ℤ
abbrev Mat := List Vec
abbrev T3 := List Mat

/-- Shape check for a 2-D tensor: `a` rows, each of length `b`. -/
def isShape2 (m : Mat) (a b : Nat) : Bool :=
  m.length = a && m.all (fun v => v.length = b)

/-- Shape check for a 3-D tensor: `a` matrices of shape `(b, c)`. -/
def isShape3 (t : T3) (a b c : Nat) : Bool :=
  t.length = a && t.all (fun m => isShape2 m b c)

/-- torch.cat(-, dim=-1) of two 3-D tensors: vectors are concatenated
feature-wise at matching (dim0, dim1) positions. -/
def catLast (x y : T3) : T3 :=
  List.zipWith (List.zipWith (· ++ ·)) x y

/-- tensor.permute([1, 0, 2]): swap the two outer dimensions of a
(rectangular) 3-D tensor; entry (j, i, ·) of the result is entry (i, j, ·)
of the input. -/
def permute102 (t : T3) : T3 :=
  (List.range (t.headD []).length).map (fun j => t.map (fun lay => lay.getD j []))

/-- The Initialization enum of layers.py. -/
inductive Initialization where
  | Zero
  | XavierGlorotNormal
  | XavierGlorotUniform
  | KaimingHeNormal
  | KaimingHeUniform
deriving DecidableEq

/-- Model of _init_methods applied to a 1-D tensor of length `n`.  torch.zero_ is
deterministic (all zeros); the four random schemes are modelled by the
`draw` parameter, which supplies the values the random initializer wrote. -/
def init_vec (draw : Initialization → Nat → Vec) (s : Initialization) (n : Nat) : Vec :=
  match s with
  | Initialization.Zero => List.replicate n 0
  | s => draw s n

/-- Model of _init_methods applied to a 2-D tensor of shape `(r, c)`. -/
def init_mat (draw : Initialization → Nat → Nat → Mat) (s : Initialization)
    (r c : Nat) : Mat :=
  match s with
  | Initialization.Zero => List.replicate r (List.replicate c 0)
  | s => draw s r c

/-- A torch.nn.Linear layer: weight of shape (output_size, input_size) and
bias of shape (output_size,). -/
structure Linear where
  weight : Mat
  bias : Vec

/-- linear_layer: allocate a Linear, apply kernel_init to the weight,
multiply the weight by kernel_gain, apply bias_init to the bias. -/
def linear_layer (draw2 : Initialization → Nat → Nat → Mat)
    (draw1 : Initialization → Nat → Vec)
    (input_size output_size : Nat) (kernel_init : Initialization)
    (kernel_gain : ℤ) (bias_init : Initialization) : Linear :=
  { weight := (init_mat draw2 kernel_init output_size input_size).map
      (fun row => row.map (fun w => w * kernel_gain))
    bias := init_vec draw1 bias_init output_size }

/-- Dot product (truncating, like the well-shaped matmul it models). -/
def dot (a b : Vec) : ℤ := (List.zipWith (· * ·) a b).sum

/-- Apply a Linear to one feature vector: out_j = w_j · x + b_j. -/
def Linear.applyVec (l : Linear) (x : Vec) : Vec :=
  List.zipWith (fun w b => dot w x + b) l.weight l.bias

/-- Apply a Linear row-wise to a batch. -/
def Linear.applyMat (l : Linear) (xs : Mat) : Mat := xs.map l.applyVec

/-- One bias tensor of the LSTM built by lstm_layer: the loop over
idx = 0..3 initializes the 4 contiguous gate blocks of length `H`
independently with `bias_init`, then adds `forget_bias` to block 1 (the
forget gate).  `draw` takes the block index because each block gets its own
independent random draw. -/
def lstm_bias (draw : Nat → Initialization → Nat → Vec) (bias_init : Initialization)
    (H : Nat) (forget_bias : ℤ) : Vec :=
  List.flatten ((List.range 4).map (fun idx =>
    let blk := init_vec (draw idx) bias_init H
    if idx = 1 then blk.map (fun b => b + forget_bias) else blk))

/-- A single-layer LSTM unrolled over one batch element: fold the cell over
the time steps, collecting each step's hidden output and the final (h, c).
The cell (whose weights are random at construction) is a parameter. -/
def lstmSeq (cell : Vec → Vec × Vec → Vec × Vec) :
    List Vec → Vec × Vec → List Vec × (Vec × Vec)
  | [], hc => ([], hc)
  | x :: xs, hc =>
    let hc2 := cell x hc
    let r := lstmSeq cell xs hc2
    (hc2.1 :: r.1, r.2)

/-- torch.nn.LSTM with num_layers = 1, batch_first = True: run every batch
element from its own initial (h, c) row; return the output sequence tensor
(batch, time, H), the final hidden states (batch, H) and the final cell
states (batch, H). -/
def lstmLayerRun (cell : Vec → Vec × Vec → Vec × Vec) (input : T3) (h0 c0 : Mat) :
    T3 × Mat × Mat :=
  let rs := (input.zip (h0.zip c0)).map (fun p => lstmSeq cell p.1 (p.2.1, p.2.2))
  (rs.map (fun r => r.1), rs.map (fun r => r.2.1), rs.map (fun r => r.2.2))

namespace LSTM

/-- The LSTM memory module constructor sets hidden_size = memory_size // 2;
the memory_size property returns 2 * hidden_size.  As a function of the
constructor argument. -/
def memory_size (memory_size_arg : Nat) : Nat := 2 * (memory_size_arg / 2)

/-- LSTM.forward: h0 = memories[:, :, :H], c0 = memories[:, :, H:], run the
recurrent layer from (h0, c0), return (lstm_out, cat((h_n, c_n), dim=-1)).
`H` is the module's hidden_size. -/
def forward (cell : Vec → Vec × Vec → Vec × Vec) (H : Nat)
    (input memories : T3) : T3 × T3 :=
  let h0 := memories.map (List.map (fun v => v.take H))
  let c0 := memories.map (List.map (fun v => v.drop H))
  let r := lstmLayerRun cell input (h0.headD []) (c0.headD [])
  (r.1, catLast [r.2.1] [r.2.2])

end LSTM

/-- Elementwise running maximum from a given accumulator (the tail of
torch.cummax along the time dimension for one batch element). -/
def cummaxGo (acc : Vec) : List Vec → List Vec
  | [] => []
  | v :: rest =>
    let w := List.zipWith max acc v
    w :: cummaxGo w rest

/-- torch.cummax(-, dim=time) for one batch element: position t holds the
elementwise maximum of positions 0..t of the input. -/
def cummaxVecs : List Vec → List Vec
  | [] => []
  | v :: rest => v :: cummaxGo v rest

namespace AMRLMax

/-- The AMRLMax memory_size property: hidden_size // 2 + 2 * hidden_size,
as a function of the module's hidden_size. -/
def memory_size (hidden_size : Nat) : Nat := hidden_size / 2 + 2 * hidden_size

/-- torch.split(memories, [half, H, H], dim=-1), first chunk (acc). -/
def splitAcc (half : Nat) (t : T3) : T3 :=
  t.map (List.map (fun v => v.take half))

/-- torch.split(memories, [half, H, H], dim=-1), second chunk (h0). -/
def splitH0 (half H : Nat) (t : T3) : T3 :=
  t.map (List.map (fun v => (v.drop half).take H))

/-- torch.split(memories, [half, H, H], dim=-1), third chunk (c0). -/
def splitC0 (half H : Nat) (t : T3) : T3 :=
  t.map (List.map (fun v => v.drop (half + H)))

/-- All intermediate values of AMRLMax.forward, in source order. -/
structure Run where
  m : T3
  lstm_out : T3
  h0_out : Mat
  c0_out : Mat
  h_half : T3
  other_half : T3
  cat_m : T3
  concat_c : T3
  concat_out : T3
  full_out : T3
  output_mem : T3

/-- AMRLMax.forward, step by step from the source.  `H` is hidden_size,
`cell` the wrapped recurrent cell, `post` the self.seq_layers stack applied
to one feature row (the source flattens (batch, time, H) to (-1, H),
applies seq_layers row-wise, and reshapes back; on well-shaped data that is
exactly a per-position application). -/
def run (cell : Vec → Vec × Vec → Vec × Vec) (post : Vec → Vec) (H : Nat)
    (input memories : T3) : Run :=
  let half := H / 2
  let acc := splitAcc half memories
  let h0 := splitH0 half H memories
  let c0 := splitC0 half H memories
  let m := permute102 acc
  let r := lstmLayerRun cell input (h0.headD []) (c0.headD [])
  let lstm_out := r.1
  let h_half := lstm_out.map (List.map (fun v => v.take half))
  let other_half := lstm_out.map (List.map (fun v => v.drop half))
  let cat_m := List.zipWith (· ++ ·) m h_half
  let concat_c := cat_m.map (fun s => (cummaxVecs s).drop 1)
  let concat_out := catLast concat_c other_half
  let full_out := concat_out.map (List.map post)
  let output_mem := catLast (catLast (permute102 m) [r.2.1]) [r.2.2]
  { m := m, lstm_out := lstm_out, h0_out := r.2.1, c0_out := r.2.2,
    h_half := h_half, other_half := other_half, cat_m := cat_m,
    concat_c := concat_c, concat_out := concat_out, full_out := full_out,
    output_mem := output_mem }

/-- AMRLMax.forward returns (concat_out, output_mem). -/
def forward (cell : Vec → Vec × Vec → Vec × Vec) (post : Vec → Vec) (H : Nat)
    (input memories : T3) : T3 × T3 :=
  let r := run cell post H input memories
  (r.concat_out, r.output_mem)

end AMRLMax

/-! ### Shape predicates, unfolding lemmas -/

theorem isShape2_iff {m : Mat} {a b : Nat} :
    isShape2 m a b = true ↔ m.length = a ∧ ∀ v ∈ m, v.length = b := by
  simp [isShape2]

theorem isShape3_iff {t : T3} {a b c : Nat} :
    isShape3 t a b c = true ↔
      t.length = a ∧ ∀ m ∈ t, m.length = b ∧ ∀ v ∈ m, v.length = c := by
  simp [isShape3, isShape2]

theorem zipWith_getD_lt {α : Type} {f : α → α → α} {x y : List α} {d : α} {b : Nat}
    (hb : b < (List.zipWith f x y).length) :
    (List.zipWith f x y).getD b d = f (x.getD b d) (y.getD b d) := by
  have hxy := List.length_zipWith f x y
  have hx : b < x.length := by rw [hxy] at hb; exact lt_of_lt_of_le hb inf_le_left
  have hy : b < y.length := by rw [hxy] at hb; exact lt_of_lt_of_le hb inf_le_right
  rw [List.getD_eq_getElem _ _ hb, List.getD_eq_getElem _ _ hx,
    List.getD_eq_getElem _ _ hy, List.getElem_zipWith]

theorem map_getD_lt {α β : Type} {f : α → β} {x : List α} {dα : α} {dβ : β} {b : Nat}
    (hb : b < x.length) :
    (x.map f).getD b dβ = f (x.getD b dα) := by
  have hb2 : b < (x.map f).length := by simpa using hb
  rw [List.getD_eq_getElem _ _ hb2, List.getD_eq_getElem _ _ hb, List.getElem_map]

/-! ### Theorems for the claims -/

/-- C10: the LSTM memory_size property is 2 * (m // 2) of the constructor
argument m: for odd m it returns m - 1, and it equals m exactly when m is
even. -/
theorem C10_lstm_memory_size_parity (m : Nat) :
    (Odd m → LSTM.memory_size m = m - 1) ∧ (LSTM.memory_size m = m ↔ Even m) := by
  simp only [LSTM.memory_size, Nat.odd_iff, Nat.even_iff]
  omega

theorem C10_lstm_memory_size_parity_witness :
    LSTM.memory_size 17 = 16 ∧ (LSTM.memory_size 16 = 16 ↔ Even 16) :=
  ⟨(C10_lstm_memory_size_parity 17).1 (by decide),
   (C10_lstm_memory_size_parity 16).2⟩

/-- C2: AMRLMax.forward returns concat_out (the aggregated but not
post-processed sequence) as its first component, for every input; and there
is an input (and post-processing stack) on which concat_out differs from
the computed full_out, so the returned output is genuinely not full_out. -/
theorem C2_forward_returns_concat_out :
    (∀ (cell : Vec → Vec × Vec → Vec × Vec) (post : Vec → Vec) (H : Nat)
        (input memories : T3),
        (AMRLMax.forward cell post H input memories).1
          = (AMRLMax.run cell post H input memories).concat_out) ∧
    (AMRLMax.run (fun x _hc => (x, x)) (fun v => v.map (fun a => a + 1)) 2
        [[[1, 1]]] [[[0, 0, 0, 0, 0]]]).concat_out
      ≠ (AMRLMax.run (fun x _hc => (x, x)) (fun v => v.map (fun a => a + 1)) 2
        [[[1, 1]]] [[[0, 0, 0, 0, 0]]]).full_out :=
  ⟨fun _ _ _ _ _ => rfl, by decide⟩

/-- C1 (code bug): at a concrete well-shaped input, AMRLMax.forward returns
updated_memory whose accumulator slice is the ORIGINAL incoming acc (the
source concatenates m.permute([1, 0, 2]), i.e. acc itself), not the last
time step of the cumulative maximum as the spec states: here the last
cummax step is [1] but the returned memory starts with the original 0, and
the memory the spec describes (built here from the run's own concat_c,
h0_out and c0_out) differs from the returned one. -/
theorem C1_output_mem_keeps_stale_acc :
    (AMRLMax.forward (fun x _hc => (x, x.map (fun a => a + 1))) id 2
        [[[1, 1]]] [[[0, 0, 0, 0, 0]]]).2 = [[[0, 1, 1, 2, 2]]] ∧
    (AMRLMax.run (fun x _hc => (x, x.map (fun a => a + 1))) id 2
        [[[1, 1]]] [[[0, 0, 0, 0, 0]]]).concat_c = [[[1]]] ∧
    catLast (catLast
        (permute102 ((AMRLMax.run (fun x _hc => (x, x.map (fun a => a + 1))) id 2
          [[[1, 1]]] [[[0, 0, 0, 0, 0]]]).concat_c.map (fun s => [s.getLastD []])))
        [(AMRLMax.run (fun x _hc => (x, x.map (fun a => a + 1))) id 2
          [[[1, 1]]] [[[0, 0, 0, 0, 0]]]).h0_out])
        [(AMRLMax.run (fun x _hc => (x, x.map (fun a => a + 1))) id 2
          [[[1, 1]]] [[[0, 0, 0, 0, 0]]]).c0_out] = [[[1, 1, 1, 2, 2]]] ∧
    ([[[0, 1, 1, 2, 2]]] : T3) ≠ [[[1, 1, 1, 2, 2]]] :=
  ⟨by decide, by decide, by decide, by decide⟩

/-- C9: the AMRLMax memory_size property is hidden_size // 2 +
2 * hidden_size, and for a well-shaped memory tensor the three splits of
forward have last-dimension sizes exactly half, hidden_size, hidden_size;
moreover the three splits concatenated feature-wise reconstruct the
memory tensor. -/
theorem C9_amrl_memory_layout (H B : Nat) (memories : T3)
    (hm : isShape3 memories 1 B (AMRLMax.memory_size H) = true) :
    AMRLMax.memory_size H = H / 2 + 2 * H ∧
    isShape3 (AMRLMax.splitAcc (H / 2) memories) 1 B (H / 2) = true ∧
    isShape3 (AMRLMax.splitH0 (H / 2) H memories) 1 B H = true ∧
    isShape3 (AMRLMax.splitC0 (H / 2) H memories) 1 B H = true ∧
    catLast (catLast (AMRLMax.splitAcc (H / 2) memories)
        (AMRLMax.splitH0 (H / 2) H memories))
      (AMRLMax.splitC0 (H / 2) H memories) = memories := by
  obtain ⟨hlen, hmem⟩ := isShape3_iff.mp hm
  refine ⟨rfl, ?_, ?_, ?_, ?_⟩
  · rw [isShape3_iff]
    refine ⟨by simpa [AMRLMax.splitAcc] using hlen, ?_⟩
    intro lay hlay
    simp only [AMRLMax.splitAcc, List.mem_map] at hlay
    obtain ⟨lay0, hlay0, rfl⟩ := hlay
    obtain ⟨hb, hv⟩ := hmem lay0 hlay0
    refine ⟨by simpa using hb, ?_⟩
    intro v hv2
    simp only [List.mem_map] at hv2
    obtain ⟨v0, hv0, rfl⟩ := hv2
    have := hv v0 hv0
    simp only [List.length_take, this, AMRLMax.memory_size]
    omega
  · rw [isShape3_iff]
    refine ⟨by simpa [AMRLMax.splitH0] using hlen, ?_⟩
    intro lay hlay
    simp only [AMRLMax.splitH0, List.mem_map] at hlay
    obtain ⟨lay0, hlay0, rfl⟩ := hlay
    obtain ⟨hb, hv⟩ := hmem lay0 hlay0
    refine ⟨by simpa using hb, ?_⟩
    intro v hv2
    simp only [List.mem_map] at hv2
    obtain ⟨v0, hv0, rfl⟩ := hv2
    have := hv v0 hv0
    simp only [List.length_take, List.length_drop, this, AMRLMax.memory_size]
    omega
  · rw [isShape3_iff]
    refine ⟨by simpa [AMRLMax.splitC0] using hlen, ?_⟩
    intro lay hlay
    simp only [AMRLMax.splitC0, List.mem_map] at hlay
    obtain ⟨lay0, hlay0, rfl⟩ := hlay
    obtain ⟨hb, hv⟩ := hmem lay0 hlay0
    refine ⟨by simpa using hb, ?_⟩
    intro v hv2
    simp only [List.mem_map] at hv2
    obtain ⟨v0, hv0, rfl⟩ := hv2
    have := hv v0 hv0
    simp only [List.length_drop, this, AMRLMax.memory_size]
    omega
  · simp only [catLast, AMRLMax.splitAcc, AMRLMax.splitH0, AMRLMax.splitC0,
      List.zipWith_map, List.zipWith_same]
    rw [show memories = memories.map id from (List.map_id memories).symm]
    simp only [List.map_map]
    refine List.map_congr_left ?_
    intro lay _
    refine (List.map_congr_left ?_).trans (List.map_id lay)
    intro v _
    rw [List.append_assoc, List.drop_take_append_drop, List.take_append_drop]
    rfl

theorem C9_amrl_memory_layout_witness :
    isShape3 [[List.replicate 10 (0 : ℤ)]] 1 1 (AMRLMax.memory_size 4) = true ∧
    (AMRLMax.memory_size 4 = 4 / 2 + 2 * 4 ∧
     isShape3 (AMRLMax.splitAcc (4 / 2) [[List.replicate 10 (0 : ℤ)]]) 1 1 (4 / 2) = true ∧
     isShape3 (AMRLMax.splitH0 (4 / 2) 4 [[List.replicate 10 (0 : ℤ)]]) 1 1 4 = true ∧
     isShape3 (AMRLMax.splitC0 (4 / 2) 4 [[List.replicate 10 (0 : ℤ)]]) 1 1 4 = true ∧
     catLast (catLast (AMRLMax.splitAcc (4 / 2) [[List.replicate 10 (0 : ℤ)]])
         (AMRLMax.splitH0 (4 / 2) 4 [[List.replicate 10 (0 : ℤ)]]))
       (AMRLMax.splitC0 (4 / 2) 4 [[List.replicate 10 (0 : ℤ)]])
       = [[List.replicate 10 (0 : ℤ)]]) :=
  ⟨by decide, C9_amrl_memory_layout 4 1 [[List.replicate 10 (0 : ℤ)]] (by decide)⟩

/-! ### Projection equations for AMRLMax.run -/

theorem AMRLMax.run_m (cell : Vec → Vec × Vec → Vec × Vec) (post : Vec → Vec)
    (H : Nat) (input memories : T3) :
    (AMRLMax.run cell post H input memories).m
      = permute102 (AMRLMax.splitAcc (H / 2) memories) := rfl

theorem AMRLMax.run_lstm_out (cell : Vec → Vec × Vec → Vec × Vec) (post : Vec → Vec)
    (H : Nat) (input memories : T3) :
    (AMRLMax.run cell post H input memories).lstm_out
      = (lstmLayerRun cell input ((AMRLMax.splitH0 (H / 2) H memories).headD [])
          ((AMRLMax.splitC0 (H / 2) H memories).headD [])).1 := rfl

theorem AMRLMax.run_h_half (cell : Vec → Vec × Vec → Vec × Vec) (post : Vec → Vec)
    (H : Nat) (input memories : T3) :
    (AMRLMax.run cell post H input memories).h_half
      = (AMRLMax.run cell post H input memories).lstm_out.map
          (List.map (fun v => v.take (H / 2))) := rfl

theorem AMRLMax.run_other_half (cell : Vec → Vec × Vec → Vec × Vec) (post : Vec → Vec)
    (H : Nat) (input memories : T3) :
    (AMRLMax.run cell post H input memories).other_half
      = (AMRLMax.run cell post H input memories).lstm_out.map
          (List.map (fun v => v.drop (H / 2))) := rfl

theorem AMRLMax.run_cat_m (cell : Vec → Vec × Vec → Vec × Vec) (post : Vec → Vec)
    (H : Nat) (input memories : T3) :
    (AMRLMax.run cell post H input memories).cat_m
      = List.zipWith (· ++ ·) (AMRLMax.run cell post H input memories).m
          (AMRLMax.run cell post H input memories).h_half := rfl

theorem AMRLMax.run_concat_c (cell : Vec → Vec × Vec → Vec × Vec) (post : Vec → Vec)
    (H : Nat) (input memories : T3) :
    (AMRLMax.run cell post H input memories).concat_c
      = (AMRLMax.run cell post H input memories).cat_m.map
          (fun s => (cummaxVecs s).drop 1) := rfl

theorem AMRLMax.run_concat_out (cell : Vec → Vec × Vec → Vec × Vec) (post : Vec → Vec)
    (H : Nat) (input memories : T3) :
    (AMRLMax.run cell post H input memories).concat_out
      = catLast (AMRLMax.run cell post H input memories).concat_c
          (AMRLMax.run cell post H input memories).other_half := rfl

theorem AMRLMax.run_output_mem (cell : Vec → Vec × Vec → Vec × Vec) (post : Vec → Vec)
    (H : Nat) (input memories : T3) :
    (AMRLMax.run cell post H input memories).output_mem
      = catLast (catLast (permute102 (AMRLMax.run cell post H input memories).m)
          [(AMRLMax.run cell post H input memories).h0_out])
          [(AMRLMax.run cell post H input memories).c0_out] := rfl

/-! ### Lemmas about the cumulative maximum -/

theorem cummaxGo_length (acc : Vec) (l : List Vec) :
    (cummaxGo acc l).length = l.length := by
  induction l generalizing acc with
  | nil => rfl
  | cons v rest ih => simp [cummaxGo, ih]

theorem zipWith_max_getD {a v : Vec} {k : Nat} (ha : k < a.length) (hv : k < v.length) :
    (List.zipWith max a v).getD k 0 = max (a.getD k 0) (v.getD k 0) :=
  zipWith_getD_lt (by rw [List.length_zipWith]; exact lt_inf_iff.mpr ⟨ha, hv⟩)

theorem cummaxGo_acc_le {L : Nat} (k : Nat) (hk : k < L) :
    ∀ (l : List Vec) (acc : Vec), acc.length = L → (∀ v ∈ l, v.length = L) →
      ∀ j, j < l.length → acc.getD k 0 ≤ ((cummaxGo acc l).getD j []).getD k 0 := by
  intro l
  induction l with
  | nil => intro acc _ _ j hj; simp at hj
  | cons v rest ih =>
    intro acc hacc hl j hj
    have hv : v.length = L := hl v (by simp)
    have hw : (List.zipWith max acc v).length = L := by
      rw [List.length_zipWith, hacc, hv]; simp
    have hstep : acc.getD k 0 ≤ (List.zipWith max acc v).getD k 0 := by
      rw [zipWith_max_getD (hacc ▸ hk) (hv ▸ hk)]
      exact le_max_left _ _
    match j with
    | 0 => simpa [cummaxGo] using hstep
    | j + 1 =>
      have hj2 : j < rest.length := by
        simpa using Nat.lt_of_succ_lt_succ hj
      have := ih (List.zipWith max acc v) hw (fun u hu => hl u (by simp [hu])) j hj2
      calc acc.getD k 0 ≤ (List.zipWith max acc v).getD k 0 := hstep
        _ ≤ _ := by simpa [cummaxGo] using this

theorem cummaxGo_mono {L : Nat} (k : Nat) (hk : k < L) :
    ∀ (l : List Vec) (acc : Vec), acc.length = L → (∀ v ∈ l, v.length = L) →
      ∀ t1 t2, t1 ≤ t2 → t2 < l.length →
        ((cummaxGo acc l).getD t1 []).getD k 0
          ≤ ((cummaxGo acc l).getD t2 []).getD k 0 := by
  intro l
  induction l with
  | nil => intro acc _ _ t1 t2 _ h2; simp at h2
  | cons v rest ih =>
    intro acc hacc hl t1 t2 h12 h2
    have hv : v.length = L := hl v (by simp)
    have hw : (List.zipWith max acc v).length = L := by
      rw [List.length_zipWith, hacc, hv]; simp
    have hrest : ∀ u ∈ rest, u.length = L := fun u hu => hl u (by simp [hu])
    match t1, t2 with
    | 0, 0 => exact le_refl _
    | 0, t2 + 1 =>
      have h2b : t2 < rest.length := by simpa using Nat.lt_of_succ_lt_succ h2
      have := cummaxGo_acc_le k hk rest (List.zipWith max acc v) hw hrest t2 h2b
      simpa [cummaxGo] using this
    | t1 + 1, t2 + 1 =>
      have h2b : t2 < rest.length := by simpa using Nat.lt_of_succ_lt_succ h2
      have := ih (List.zipWith max acc v) hw hrest t1 t2
        (Nat.le_of_succ_le_succ h12) h2b
      simpa [cummaxGo] using this

theorem cummaxVecs_drop_one_mono {L : Nat} (s : List Vec) (k t1 t2 : Nat) (hk : k < L)
    (huni : ∀ v ∈ s, v.length = L) (h12 : t1 ≤ t2)
    (h2 : t2 < ((cummaxVecs s).drop 1).length) :
    (((cummaxVecs s).drop 1).getD t1 []).getD k 0
      ≤ (((cummaxVecs s).drop 1).getD t2 []).getD k 0 := by
  match s with
  | [] => simp [cummaxVecs] at h2
  | v :: rest =>
    have hv : v.length = L := huni v (by simp)
    have hrest : ∀ u ∈ rest, u.length = L := fun u hu => huni u (by simp [hu])
    have h2b : t2 < rest.length := by
      simpa [cummaxVecs, cummaxGo_length] using h2
    simpa [cummaxVecs] using
      cummaxGo_mono k hk rest v hv hrest t1 t2 h12 h2b

theorem zipWith_max_left_comm (b x y : Vec) :
    List.zipWith max (List.zipWith max b x) y
      = List.zipWith max (List.zipWith max b y) x := by
  induction b generalizing x y with
  | nil => simp
  | cons a bs ih =>
    cases x with
    | nil => simp
    | cons xa xs =>
      cases y with
      | nil => simp
      | cons ya ys => simp [ih xs ys, sup_right_comm]

theorem cummaxGo_getLastD (l : List Vec) (acc d : Vec) :
    (cummaxGo acc l).getLastD d
      = if l.isEmpty then d
        else l.foldl (fun b v => List.zipWith max b v) acc := by
  induction l generalizing acc d with
  | nil => rfl
  | cons u rest ih =>
    simp only [cummaxGo, List.getLastD_cons, ih]
    cases rest <;> simp

/-- C4: the cumulative-max aggregation inside AMRLMax.forward (the concat_c
field of the run) is monotonically non-decreasing along the time axis in
every channel, for every batch element b, channel k and times t1 ≤ t2,
whenever the aggregated sequence is rectangular (well-shaped input). -/
theorem C4_concat_c_monotone (cell : Vec → Vec × Vec → Vec × Vec)
    (post : Vec → Vec) (H : Nat) (input memories : T3) (b t1 t2 k L : Nat)
    (huni : ∀ v ∈ (AMRLMax.run cell post H input memories).cat_m.getD b [],
      v.length = L)
    (hk : k < L) (h12 : t1 ≤ t2)
    (h2 : t2 < ((AMRLMax.run cell post H input memories).concat_c.getD b []).length) :
    (((AMRLMax.run cell post H input memories).concat_c.getD b []).getD t1 []).getD k 0
      ≤ (((AMRLMax.run cell post H input memories).concat_c.getD b []).getD t2 []).getD k 0 := by
  rw [AMRLMax.run_concat_c] at h2 ⊢
  by_cases hb : b < (AMRLMax.run cell post H input memories).cat_m.length
  · rw [map_getD_lt hb] at h2 ⊢
    exact cummaxVecs_drop_one_mono _ k t1 t2 hk huni h12 h2
  · rw [List.getD_eq_default] at h2
    · simp at h2
    · simpa using Nat.le_of_not_lt hb

theorem C4_concat_c_monotone_witness :
    (∀ v ∈ (AMRLMax.run (fun x _hc => (x, x)) id 2 [[[1, 0], [2, 0]]]
        [[[0, 0, 0, 0, 0]]]).cat_m.getD 0 [], v.length = 1) ∧
    (((AMRLMax.run (fun x _hc => (x, x)) id 2 [[[1, 0], [2, 0]]]
        [[[0, 0, 0, 0, 0]]]).concat_c.getD 0 []).getD 0 []).getD 0 0
      ≤ (((AMRLMax.run (fun x _hc => (x, x)) id 2 [[[1, 0], [2, 0]]]
        [[[0, 0, 0, 0, 0]]]).concat_c.getD 0 []).getD 1 []).getD 0 0 :=
  ⟨by decide,
   C4_concat_c_monotone (fun x _hc => (x, x)) id 2 [[[1, 0], [2, 0]]]
     [[[0, 0, 0, 0, 0]]] 0 0 1 0 1 (by decide) (by decide) (by decide) (by decide)⟩

theorem cummaxGo_getLastD_perm (a : Vec) {x y : List Vec} (h : x.Perm y) :
    (cummaxGo a x).getLastD [] = (cummaxGo a y).getLastD [] := by
  cases x with
  | nil =>
    have hy : y = [] := h.nil_eq.symm
    subst hy; rfl
  | cons u us =>
    cases y with
    | nil => exact absurd h (by simp)
    | cons w ws =>
      rw [cummaxGo_getLastD, cummaxGo_getLastD]
      simp only [List.isEmpty_cons, if_false]
      exact h.foldl_eq' (fun p _ q _ z => zipWith_max_left_comm z p q) a

/-- C3: the AMRL-Max aggregation is order invariant: for two runs over the
same memory tensor whose per-step aggregated values (the h_half sequences
fed to the cumulative max) for batch element b are permutations of each
other, the final accumulator value (last time step of concat_c) is
identical. -/
theorem C3_aggregation_order_invariant
    (cell1 cell2 : Vec → Vec × Vec → Vec × Vec) (post1 post2 : Vec → Vec)
    (H : Nat) (input1 input2 memories : T3) (b : Nat) (a : Vec)
    (hb1 : b < (AMRLMax.run cell1 post1 H input1 memories).cat_m.length)
    (hb2 : b < (AMRLMax.run cell2 post2 H input2 memories).cat_m.length)
    (hacc : (AMRLMax.run cell1 post1 H input1 memories).m.getD b [] = [a])
    (hperm : ((AMRLMax.run cell1 post1 H input1 memories).h_half.getD b []).Perm
        ((AMRLMax.run cell2 post2 H input2 memories).h_half.getD b [])) :
    ((AMRLMax.run cell1 post1 H input1 memories).concat_c.getD b []).getLastD []
      = ((AMRLMax.run cell2 post2 H input2 memories).concat_c.getD b []).getLastD [] := by
  have hacc2 : (AMRLMax.run cell2 post2 H input2 memories).m.getD b [] = [a] := hacc
  have hb1b : b < (List.zipWith (· ++ ·) (AMRLMax.run cell1 post1 H input1 memories).m
      (AMRLMax.run cell1 post1 H input1 memories).h_half).length := by
    rw [← AMRLMax.run_cat_m]; exact hb1
  have hb2b : b < (List.zipWith (· ++ ·) (AMRLMax.run cell2 post2 H input2 memories).m
      (AMRLMax.run cell2 post2 H input2 memories).h_half).length := by
    rw [← AMRLMax.run_cat_m]; exact hb2
  rw [AMRLMax.run_concat_c, map_getD_lt hb1, AMRLMax.run_cat_m,
    zipWith_getD_lt hb1b, hacc]
  rw [AMRLMax.run_concat_c cell2, map_getD_lt hb2, AMRLMax.run_cat_m,
    zipWith_getD_lt hb2b, hacc2]
  have hcv : ∀ z : List Vec, (cummaxVecs ([a] ++ z)).drop 1 = cummaxGo a z := by
    intro z; simp [cummaxVecs]
  rw [hcv, hcv]
  exact cummaxGo_getLastD_perm a hperm

theorem C3_aggregation_order_invariant_witness :
    0 < (AMRLMax.run (fun x _hc => (x, x)) id 2 [[[1, 0], [2, 0]]]
      [[[0, 0, 0, 0, 0]]]).cat_m.length ∧
    0 < (AMRLMax.run (fun x _hc => (x, x)) id 2 [[[2, 0], [1, 0]]]
      [[[0, 0, 0, 0, 0]]]).cat_m.length ∧
    (AMRLMax.run (fun x _hc => (x, x)) id 2 [[[1, 0], [2, 0]]]
      [[[0, 0, 0, 0, 0]]]).m.getD 0 [] = [[0]] ∧
    ((AMRLMax.run (fun x _hc => (x, x)) id 2 [[[1, 0], [2, 0]]]
      [[[0, 0, 0, 0, 0]]]).h_half.getD 0 []).Perm
      ((AMRLMax.run (fun x _hc => (x, x)) id 2 [[[2, 0], [1, 0]]]
      [[[0, 0, 0, 0, 0]]]).h_half.getD 0 []) ∧
    ((AMRLMax.run (fun x _hc => (x, x)) id 2 [[[1, 0], [2, 0]]]
      [[[0, 0, 0, 0, 0]]]).concat_c.getD 0 []).getLastD []
      = ((AMRLMax.run (fun x _hc => (x, x)) id 2 [[[2, 0], [1, 0]]]
      [[[0, 0, 0, 0, 0]]]).concat_c.getD 0 []).getLastD [] :=
  ⟨by decide, by decide, by decide, by decide,
   C3_aggregation_order_invariant (fun x _hc => (x, x)) (fun x _hc => (x, x))
     id id 2 [[[1, 0], [2, 0]]] [[[2, 0], [1, 0]]] [[[0, 0, 0, 0, 0]]] 0 [0]
     (by decide) (by decide) (by decide) (by decide)⟩

/-- C7: in every bias tensor built by lstm_layer, gate block idx (idx < 4,
each block of length H along dimension 0) equals the bias_init result for
that block, except the forget-gate block (idx = 1), which equals the
bias_init result plus forget_bias element-wise. -/
theorem C7_forget_gate_bias (draw : Nat → Initialization → Nat → Vec)
    (bias_init : Initialization) (H : Nat) (fb : ℤ) (idx : Nat)
    (hlen : ∀ i, (init_vec (draw i) bias_init H).length = H)
    (hidx : idx < 4) :
    ((lstm_bias draw bias_init H fb).drop (idx * H)).take H
      = if idx = 1
        then (init_vec (draw 1) bias_init H).map (fun b => b + fb)
        else init_vec (draw idx) bias_init H := by
  have hmap : ∀ i, ((init_vec (draw i) bias_init H).map
      (fun b => b + fb)).length = H := by
    intro i; rw [List.length_map]; exact hlen i
  have hexp : lstm_bias draw bias_init H fb
      = init_vec (draw 0) bias_init H
        ++ ((init_vec (draw 1) bias_init H).map (fun b => b + fb)
        ++ (init_vec (draw 2) bias_init H
        ++ init_vec (draw 3) bias_init H)) := by
    simp [lstm_bias, List.range_succ]
  interval_cases idx
  · rw [hexp]
    simp only [Nat.zero_mul, List.drop_zero, if_neg (by decide : ¬ (0 = 1))]
    exact List.take_left' (hlen 0)
  · rw [hexp, List.drop_left' (by simpa using hlen 0), if_pos rfl]
    exact List.take_left' (hmap 1)
  · rw [hexp]
    have h2 : (2 : Nat) * H = H + H := by ring
    rw [h2, ← List.drop_drop, List.drop_left' (hlen 0),
      List.drop_left' (hmap 1), if_neg (by decide : ¬ (2 = 1))]
    exact List.take_left' (hlen 2)
  · rw [hexp]
    have h3 : (3 : Nat) * H = (H + H) + H := by ring
    rw [h3, ← List.drop_drop, ← List.drop_drop, List.drop_left' (hlen 0),
      List.drop_left' (hmap 1), List.drop_left' (hlen 2),
      if_neg (by decide : ¬ (3 = 1))]
    exact List.take_of_length_le (le_of_eq (hlen 3))

theorem C7_forget_gate_bias_witness :
    (∀ i, (init_vec ((fun j _s n => List.replicate n (j : ℤ)) i)
      Initialization.XavierGlorotUniform 2).length = 2) ∧
    1 < 4 ∧
    ((lstm_bias (fun j _s n => List.replicate n (j : ℤ))
        Initialization.XavierGlorotUniform 2 1).drop (1 * 2)).take 2
      = if 1 = 1
        then (init_vec ((fun j _s n => List.replicate n (j : ℤ)) 1)
          Initialization.XavierGlorotUniform 2).map (fun b => b + 1)
        else init_vec ((fun j _s n => List.replicate n (j : ℤ)) 1)
          Initialization.XavierGlorotUniform 2 :=
  ⟨fun _i => rfl, by decide,
   C7_forget_gate_bias (fun j _s n => List.replicate n (j : ℤ))
     Initialization.XavierGlorotUniform 2 1 1 (fun _i => rfl) (by decide)⟩

/-- C8: linear_layer(input_size, output_size) builds weight of shape
(output_size, input_size) and bias of shape (output_size,); the weight is
the kernel_init result scaled by kernel_gain and the bias is the bias_init
result; with default arguments, linear_layer(4, 8) has weight shape (8, 4)
and bias shape (8,), and applying it to zeros of shape (1, 4) yields shape
(1, 8). -/
theorem C8_linear_layer (draw2 : Initialization → Nat → Nat → Mat)
    (draw1 : Initialization → Nat → Vec)
    (h2 : ∀ s r c, isShape2 (init_mat draw2 s r c) r c = true)
    (h1 : ∀ s n, (init_vec draw1 s n).length = n) :
    (∀ i o k g bi,
      isShape2 (linear_layer draw2 draw1 i o k g bi).weight o i = true ∧
      (linear_layer draw2 draw1 i o k g bi).bias.length = o ∧
      (linear_layer draw2 draw1 i o k g bi).weight
        = (init_mat draw2 k o i).map (fun row => row.map (fun w => w * g)) ∧
      (linear_layer draw2 draw1 i o k g bi).bias = init_vec draw1 bi o) ∧
    isShape2 ((linear_layer draw2 draw1 4 8 Initialization.XavierGlorotUniform 1
        Initialization.Zero).applyMat (List.replicate 1 (List.replicate 4 0)))
      1 8 = true := by
  have hshape : ∀ i o k (g : ℤ) bi,
      isShape2 (linear_layer draw2 draw1 i o k g bi).weight o i = true := by
    intro i o k g bi
    obtain ⟨hlen, hrow⟩ := isShape2_iff.mp (h2 k o i)
    rw [isShape2_iff]
    constructor
    · simp [linear_layer, hlen]
    · intro v hv
      simp only [linear_layer, List.mem_map] at hv
      obtain ⟨row, hrow2, rfl⟩ := hv
      simp [hrow row hrow2]
  refine ⟨fun i o k g bi => ⟨hshape i o k g bi, by simp [linear_layer, h1], rfl, rfl⟩, ?_⟩
  rw [isShape2_iff]
  constructor
  · simp [Linear.applyMat]
  · intro v hv
    simp only [Linear.applyMat, List.mem_map] at hv
    obtain ⟨row, _hrow, rfl⟩ := hv
    obtain ⟨hwl, _⟩ := isShape2_iff.mp
      (hshape 4 8 Initialization.XavierGlorotUniform 1 Initialization.Zero)
    have hbl : (linear_layer draw2 draw1 4 8 Initialization.XavierGlorotUniform 1
        Initialization.Zero).bias.length = 8 := by simp [linear_layer, h1]
    rw [Linear.applyVec, List.length_zipWith, hwl, hbl]
    simp

theorem C8_linear_layer_witness :
    (∀ s r c, isShape2 (init_mat (fun _s r c => List.replicate r
      (List.replicate c (1 : ℤ))) s r c) r c = true) ∧
    (∀ s n, (init_vec (fun _s n => List.replicate n (1 : ℤ)) s n).length = n) ∧
    (isShape2 (linear_layer (fun _s r c => List.replicate r (List.replicate c (1 : ℤ)))
        (fun _s n => List.replicate n (1 : ℤ)) 4 8
        Initialization.XavierGlorotUniform 1 Initialization.Zero).weight 8 4 = true ∧
     isShape2 ((linear_layer (fun _s r c => List.replicate r (List.replicate c (1 : ℤ)))
        (fun _s n => List.replicate n (1 : ℤ)) 4 8
        Initialization.XavierGlorotUniform 1 Initialization.Zero).applyMat
        (List.replicate 1 (List.replicate 4 0))) 1 8 = true) := by
  have hdraw2 : ∀ s r c, isShape2 (init_mat (fun _s r c => List.replicate r
      (List.replicate c (1 : ℤ))) s r c) r c = true := by
    intro s r c
    cases s <;> simp [init_mat, isShape2, List.all_eq_true]
  have hdraw1 : ∀ s n, (init_vec (fun _s n =>
      List.replicate n (1 : ℤ)) s n).length = n := by
    intro s n
    cases s <;> simp [init_vec]
  have happ := C8_linear_layer (fun _s r c => List.replicate r (List.replicate c (1 : ℤ)))
    (fun _s n => List.replicate n (1 : ℤ)) hdraw2 hdraw1
  exact ⟨hdraw2, hdraw1,
    (happ.1 4 8 Initialization.XavierGlorotUniform 1 Initialization.Zero).1, happ.2⟩

/-! ### Shape lemmas for the recurrent layer and the memory modules -/

theorem zipWith_mem {α β γ : Type} {f : α → β → γ} :
    ∀ {x : List α} {y : List β} {w : γ}, w ∈ List.zipWith f x y →
      ∃ u ∈ x, ∃ v ∈ y, w = f u v := by
  intro x
  induction x with
  | nil => intro y w hw; simp at hw
  | cons u us ih =>
    intro y w hw
    cases y with
    | nil => simp at hw
    | cons v vs =>
      rw [List.zipWith_cons_cons] at hw
      rcases List.mem_cons.mp hw with rfl | hw2
      · exact ⟨u, by simp, v, by simp, rfl⟩
      · obtain ⟨u2, hu2, v2, hv2, rfl⟩ := ih hw2
        exact ⟨u2, by simp [hu2], v2, by simp [hv2], rfl⟩

theorem lstmSeq_shape (cell : Vec → Vec × Vec → Vec × Vec) (H : Nat)
    (hcell : ∀ x hc, (cell x hc).1.length = H ∧ (cell x hc).2.length = H) :
    ∀ (xs : List Vec) (hc : Vec × Vec), hc.1.length = H → hc.2.length = H →
      (lstmSeq cell xs hc).1.length = xs.length ∧
      (∀ v ∈ (lstmSeq cell xs hc).1, v.length = H) ∧
      (lstmSeq cell xs hc).2.1.length = H ∧
      (lstmSeq cell xs hc).2.2.length = H := by
  intro xs
  induction xs with
  | nil => intro hc hh hcl; exact ⟨rfl, by simp [lstmSeq], hh, hcl⟩
  | cons x rest ih =>
    intro hc hh hcl
    obtain ⟨h1, h2⟩ := hcell x hc
    obtain ⟨ihl, ihm, ihh, ihc⟩ := ih (cell x hc) h1 h2
    refine ⟨by simp [lstmSeq, ihl], ?_, by simpa [lstmSeq] using ihh,
      by simpa [lstmSeq] using ihc⟩
    intro v hv
    simp only [lstmSeq] at hv
    rcases List.mem_cons.mp hv with rfl | hv2
    · exact h1
    · exact ihm v hv2

theorem lstmLayerRun_shape (cell : Vec → Vec × Vec → Vec × Vec) (H T : Nat)
    (hcell : ∀ x hc, (cell x hc).1.length = H ∧ (cell x hc).2.length = H) :
    ∀ (input : T3) (h0 c0 : Mat),
      h0.length = input.length → c0.length = input.length →
      (∀ xs ∈ input, xs.length = T) →
      (∀ h ∈ h0, h.length = H) → (∀ c ∈ c0, c.length = H) →
      (lstmLayerRun cell input h0 c0).1.length = input.length ∧
      (∀ out ∈ (lstmLayerRun cell input h0 c0).1,
        out.length = T ∧ ∀ v ∈ out, v.length = H) ∧
      (lstmLayerRun cell input h0 c0).2.1.length = input.length ∧
      (∀ h ∈ (lstmLayerRun cell input h0 c0).2.1, h.length = H) ∧
      (lstmLayerRun cell input h0 c0).2.2.length = input.length ∧
      (∀ c ∈ (lstmLayerRun cell input h0 c0).2.2, c.length = H) := by
  intro input
  induction input with
  | nil =>
    intro h0 c0 _ _ _ _ _
    exact ⟨rfl, by simp [lstmLayerRun], rfl, by simp [lstmLayerRun], rfl,
      by simp [lstmLayerRun]⟩
  | cons xs rest ih =>
    intro h0 c0 hl0 hlc hT hH hC
    cases h0 with
    | nil => simp at hl0
    | cons h h0t =>
      cases c0 with
      | nil => simp at hlc
      | cons c c0t =>
        have e1 : (lstmLayerRun cell (xs :: rest) (h :: h0t) (c :: c0t)).1
            = (lstmSeq cell xs (h, c)).1 :: (lstmLayerRun cell rest h0t c0t).1 := rfl
        have e2 : (lstmLayerRun cell (xs :: rest) (h :: h0t) (c :: c0t)).2.1
            = (lstmSeq cell xs (h, c)).2.1 :: (lstmLayerRun cell rest h0t c0t).2.1 := rfl
        have e3 : (lstmLayerRun cell (xs :: rest) (h :: h0t) (c :: c0t)).2.2
            = (lstmSeq cell xs (h, c)).2.2 :: (lstmLayerRun cell rest h0t c0t).2.2 := rfl
        obtain ⟨s1, s2, s3, s4⟩ := lstmSeq_shape cell H hcell xs (h, c)
          (hH h (by simp)) (hC c (by simp))
        obtain ⟨i1, i2, i3, i4, i5, i6⟩ := ih h0t c0t (by simpa using hl0)
          (by simpa using hlc) (fun a ha => hT a (by simp [ha]))
          (fun a ha => hH a (by simp [ha])) (fun a ha => hC a (by simp [ha]))
        refine ⟨by rw [e1]; simp [i1], ?_, by rw [e2]; simp [i3], ?_,
          by rw [e3]; simp [i5], ?_⟩
        · intro out hout
          rw [e1] at hout
          rcases List.mem_cons.mp hout with rfl | hout2
          · exact ⟨by rw [s1]; exact hT xs (by simp), s2⟩
          · exact i2 out hout2
        · intro hh hhm
          rw [e2] at hhm
          rcases List.mem_cons.mp hhm with rfl | hhm2
          · exact s3
          · exact i4 hh hhm2
        · intro cc hcm
          rw [e3] at hcm
          rcases List.mem_cons.mp hcm with rfl | hcm2
          · exact s4
          · exact i6 cc hcm2

theorem permute102_shape (a b c : Nat) (t : T3) (ha : 0 < a)
    (hl : t.length = a) (hm : ∀ m ∈ t, m.length = b ∧ ∀ v ∈ m, v.length = c) :
    (permute102 t).length = b ∧
    (∀ m ∈ permute102 t, m.length = a ∧ ∀ v ∈ m, v.length = c) := by
  have hhead : (t.headD []).length = b := by
    cases t with
    | nil => simp at hl; omega
    | cons m0 rest => exact (hm m0 (by simp)).1
  constructor
  · rw [permute102, List.length_map, List.length_range, hhead]
  · intro mm hmm
    simp only [permute102, List.mem_map, List.mem_range] at hmm
    obtain ⟨j, hj, rfl⟩ := hmm
    refine ⟨by simp [hl], ?_⟩
    intro v hv
    simp only [List.mem_map] at hv
    obtain ⟨lay, hlay, rfl⟩ := hv
    obtain ⟨hlayl, hlayv⟩ := hm lay hlay
    have hj2 : j < lay.length := by rw [hlayl, ← hhead]; exact hj
    rw [List.getD_eq_getElem _ _ hj2]
    exact hlayv _ (lay.getElem_mem hj2)

theorem catLast_shape (a b c d : Nat) (x y : T3)
    (hx : x.length = a) (hxm : ∀ m ∈ x, m.length = b ∧ ∀ v ∈ m, v.length = c)
    (hy : y.length = a) (hym : ∀ m ∈ y, m.length = b ∧ ∀ v ∈ m, v.length = d) :
    (catLast x y).length = a ∧
    (∀ m ∈ catLast x y, m.length = b ∧ ∀ v ∈ m, v.length = c + d) := by
  constructor
  · rw [catLast, List.length_zipWith, hx, hy]; simp
  · intro mm hmm
    obtain ⟨mx, hmx, my, hmy, rfl⟩ := zipWith_mem hmm
    obtain ⟨hmxl, hmxv⟩ := hxm mx hmx
    obtain ⟨hmyl, hmyv⟩ := hym my hmy
    constructor
    · rw [List.length_zipWith, hmxl, hmyl]; simp
    · intro v hv
      obtain ⟨u, hu, w, hw, rfl⟩ := zipWith_mem hv
      rw [List.length_append, hmxv u hu, hmyv w hw]

theorem LSTM_forward_shape (cell : Vec → Vec × Vec → Vec × Vec) (H B T I : Nat)
    (hcell : ∀ x hc, (cell x hc).1.length = H ∧ (cell x hc).2.length = H)
    (input memories : T3)
    (hin : isShape3 input B T I = true)
    (hmem : isShape3 memories 1 B (2 * H) = true) :
    isShape3 (LSTM.forward cell H input memories).1 B T H = true ∧
    isShape3 (LSTM.forward cell H input memories).2 1 B (2 * H) = true := by
  obtain ⟨hinl, hinm⟩ := isShape3_iff.mp hin
  obtain ⟨hml, hmm⟩ := isShape3_iff.mp hmem
  cases memories with
  | nil => simp at hml
  | cons lay rest =>
    cases rest with
    | cons l2 r2 => simp at hml
    | nil =>
      obtain ⟨hlayl, hlayv⟩ := hmm lay (by simp)
      have hrun := lstmLayerRun_shape cell H T hcell input
        (lay.map (fun v => v.take H)) (lay.map (fun v => v.drop H))
        (by simp [hlayl, hinl]) (by simp [hlayl, hinl])
        (fun xs hxs => (hinm xs hxs).1)
        (by
          intro h hh
          obtain ⟨v, hv, rfl⟩ := List.mem_map.mp hh
          rw [List.length_take, hlayv v hv]
          omega)
        (by
          intro c hc
          obtain ⟨v, hv, rfl⟩ := List.mem_map.mp hc
          rw [List.length_drop, hlayv v hv]
          omega)
      obtain ⟨r1, r2s, r3, r4, r5, r6⟩ := hrun
      have hfwd1 : (LSTM.forward cell H input [lay]).1
          = (lstmLayerRun cell input (lay.map (fun v => v.take H))
              (lay.map (fun v => v.drop H))).1 := rfl
      have hfwd2 : (LSTM.forward cell H input [lay]).2
          = catLast [(lstmLayerRun cell input (lay.map (fun v => v.take H))
              (lay.map (fun v => v.drop H))).2.1]
            [(lstmLayerRun cell input (lay.map (fun v => v.take H))
              (lay.map (fun v => v.drop H))).2.2] := rfl
      constructor
      · rw [isShape3_iff, hfwd1]
        exact ⟨by rw [r1, hinl], fun m hm => (r2s m hm)⟩
      · rw [isShape3_iff, hfwd2]
        have hcat := catLast_shape 1 B H H
          [(lstmLayerRun cell input (lay.map (fun v => v.take H))
              (lay.map (fun v => v.drop H))).2.1]
          [(lstmLayerRun cell input (lay.map (fun v => v.take H))
              (lay.map (fun v => v.drop H))).2.2]
          (by simp) (by
            intro m hm
            rcases List.mem_singleton.mp hm with rfl
            exact ⟨by rw [r3, hinl], r4⟩)
          (by simp) (by
            intro m hm
            rcases List.mem_singleton.mp hm with rfl
            exact ⟨by rw [r5, hinl], r6⟩)
        refine ⟨hcat.1, ?_⟩
        intro m hm
        obtain ⟨hml2, hmv2⟩ := hcat.2 m hm
        exact ⟨hml2, fun v hv => by rw [hmv2 v hv]; omega⟩

theorem AMRL_output_mem_shape (cell : Vec → Vec × Vec → Vec × Vec)
    (post : Vec → Vec) (H B T I : Nat)
    (hcell : ∀ x hc, (cell x hc).1.length = H ∧ (cell x hc).2.length = H)
    (input memories : T3) (hB : 0 < B)
    (hin : isShape3 input B T I = true)
    (hmem : isShape3 memories 1 B (AMRLMax.memory_size H) = true) :
    isShape3 (AMRLMax.forward cell post H input memories).2 1 B
      (AMRLMax.memory_size H) = true := by
  obtain ⟨hinl, hinm⟩ := isShape3_iff.mp hin
  obtain ⟨hml, hmm⟩ := isShape3_iff.mp hmem
  cases memories with
  | nil => simp at hml
  | cons lay rest =>
    cases rest with
    | cons l2 r2 => simp at hml
    | nil =>
      obtain ⟨hlayl, hlayv⟩ := hmm lay (by simp)
      have hfwd : (AMRLMax.forward cell post H input [lay]).2
          = catLast (catLast (permute102 (permute102 (AMRLMax.splitAcc (H / 2) [lay])))
              [(lstmLayerRun cell input (lay.map (fun v => (v.drop (H / 2)).take H))
                 (lay.map (fun v => v.drop (H / 2 + H)))).2.1])
            [(lstmLayerRun cell input (lay.map (fun v => (v.drop (H / 2)).take H))
                 (lay.map (fun v => v.drop (H / 2 + H)))).2.2] := rfl
      have hrun := lstmLayerRun_shape cell H T hcell input
        (lay.map (fun v => (v.drop (H / 2)).take H))
        (lay.map (fun v => v.drop (H / 2 + H)))
        (by simp [hlayl, hinl]) (by simp [hlayl, hinl])
        (fun xs hxs => (hinm xs hxs).1)
        (by
          intro h hh
          obtain ⟨v, hv, rfl⟩ := List.mem_map.mp hh
          rw [List.length_take, List.length_drop, hlayv v hv, AMRLMax.memory_size]
          omega)
        (by
          intro c hc
          obtain ⟨v, hv, rfl⟩ := List.mem_map.mp hc
          rw [List.length_drop, hlayv v hv, AMRLMax.memory_size]
          omega)
      obtain ⟨_r1, _r2s, r3, r4, r5, r6⟩ := hrun
      have haccl : (AMRLMax.splitAcc (H / 2) [lay]).length = 1 := by
        simp [AMRLMax.splitAcc]
      have haccm : ∀ m ∈ AMRLMax.splitAcc (H / 2) [lay],
          m.length = B ∧ ∀ v ∈ m, v.length = H / 2 := by
        intro m hm
        simp only [AMRLMax.splitAcc, List.map_cons, List.map_nil,
          List.mem_singleton] at hm
        subst hm
        refine ⟨by simp [hlayl], ?_⟩
        intro v hv
        obtain ⟨v0, hv0, rfl⟩ := List.mem_map.mp hv
        rw [List.length_take, hlayv v0 hv0, AMRLMax.memory_size]
        omega
      have hm1 := permute102_shape 1 B (H / 2) (AMRLMax.splitAcc (H / 2) [lay])
        one_pos haccl haccm
      have hm2 := permute102_shape B 1 (H / 2)
        (permute102 (AMRLMax.splitAcc (H / 2) [lay])) hB hm1.1 hm1.2
      have hcat1 := catLast_shape 1 B (H / 2) H
        (permute102 (permute102 (AMRLMax.splitAcc (H / 2) [lay])))
        [(lstmLayerRun cell input (lay.map (fun v => (v.drop (H / 2)).take H))
            (lay.map (fun v => v.drop (H / 2 + H)))).2.1]
        hm2.1 hm2.2 (by simp)
        (by
          intro m hm
          rcases List.mem_singleton.mp hm with rfl
          exact ⟨by rw [r3, hinl], r4⟩)
      have hcat2 := catLast_shape 1 B (H / 2 + H) H
        (catLast (permute102 (permute102 (AMRLMax.splitAcc (H / 2) [lay])))
          [(lstmLayerRun cell input (lay.map (fun v => (v.drop (H / 2)).take H))
              (lay.map (fun v => v.drop (H / 2 + H)))).2.1])
        [(lstmLayerRun cell input (lay.map (fun v => (v.drop (H / 2)).take H))
            (lay.map (fun v => v.drop (H / 2 + H)))).2.2]
        hcat1.1 hcat1.2 (by simp)
        (by
          intro m hm
          rcases List.mem_singleton.mp hm with rfl
          exact ⟨by rw [r5, hinl], r6⟩)
      rw [isShape3_iff, hfwd]
      refine ⟨hcat2.1, ?_⟩
      intro m hm
      obtain ⟨hml2, hmv2⟩ := hcat2.2 m hm
      refine ⟨hml2, ?_⟩
      intro v hv
      rw [hmv2 v hv, AMRLMax.memory_size]
      omega

/-- C5: for both memory-module variants, LSTM and AMRLMax, forward returns
an updated_memory of the same shape (1, B, memory_size) as the well-shaped
initial_memory it was given.  (The no-mutation half of the claim is
inherent in this embedding: forward is a pure function of its arguments
and cannot write to them.) -/
theorem C5_memory_shape_preserved (cell : Vec → Vec × Vec → Vec × Vec)
    (post : Vec → Vec) (H B T I : Nat)
    (hcell : ∀ x hc, (cell x hc).1.length = H ∧ (cell x hc).2.length = H)
    (input memL memA : T3) (hB : 0 < B)
    (hin : isShape3 input B T I = true)
    (hL : isShape3 memL 1 B (2 * H) = true)
    (hA : isShape3 memA 1 B (AMRLMax.memory_size H) = true) :
    isShape3 (LSTM.forward cell H input memL).2 1 B (2 * H) = true ∧
    isShape3 (AMRLMax.forward cell post H input memA).2 1 B
      (AMRLMax.memory_size H) = true :=
  ⟨(LSTM_forward_shape cell H B T I hcell input memL hin hL).2,
   AMRL_output_mem_shape cell post H B T I hcell input memA hB hin hA⟩

theorem C5_memory_shape_preserved_witness :
    (∀ (x : Vec) (hc : Vec × Vec),
      ((fun (_x : Vec) (_hc : Vec × Vec) => (([5, 6] : Vec), ([7, 8] : Vec))) x hc).1.length = 2 ∧
      ((fun (_x : Vec) (_hc : Vec × Vec) => (([5, 6] : Vec), ([7, 8] : Vec))) x hc).2.length = 2) ∧
    0 < 1 ∧
    isShape3 [[[1, 1]]] 1 1 2 = true ∧
    isShape3 [[[0, 0, 0, 0]]] 1 1 (2 * 2) = true ∧
    isShape3 [[[0, 0, 0, 0, 0]]] 1 1 (AMRLMax.memory_size 2) = true ∧
    (isShape3 (LSTM.forward (fun (_x : Vec) (_hc : Vec × Vec) => (([5, 6] : Vec), ([7, 8] : Vec)))
        2 [[[1, 1]]] [[[0, 0, 0, 0]]]).2 1 1 (2 * 2) = true ∧
     isShape3 (AMRLMax.forward (fun (_x : Vec) (_hc : Vec × Vec) => (([5, 6] : Vec), ([7, 8] : Vec)))
        id 2 [[[1, 1]]] [[[0, 0, 0, 0, 0]]]).2 1 1 (AMRLMax.memory_size 2) = true) :=
  ⟨fun _ _ => ⟨rfl, rfl⟩, by decide, by decide, by decide, by decide,
   C5_memory_shape_preserved (fun _x _hc => (([5, 6] : Vec), ([7, 8] : Vec))) id 2 1 1 2
     (fun _ _ => ⟨rfl, rfl⟩) [[[1, 1]]] [[[0, 0, 0, 0]]] [[[0, 0, 0, 0, 0]]]
     (by decide) (by decide) (by decide) (by decide)⟩

/-- C6: the LSTM memory module with input_size = 3, memory_size = 16
(hence hidden_size = 8): the memory_size property returns 16, and forward
on an input of shape (2, 5, 3) with initial memory of shape (1, 2, 16)
returns an output sequence of shape (2, 5, 8) and an updated memory of
shape (1, 2, 16), built by splitting the memory into (hidden, cell)
halves, running the recurrent layer from them, and concatenating the final
(hidden, cell) pair. -/
theorem C6_lstm_end_to_end (cell : Vec → Vec × Vec → Vec × Vec)
    (hcell : ∀ x hc, (cell x hc).1.length = 8 ∧ (cell x hc).2.length = 8)
    (input memories : T3)
    (hin : isShape3 input 2 5 3 = true)
    (hmem : isShape3 memories 1 2 16 = true) :
    LSTM.memory_size 16 = 16 ∧
    isShape3 (LSTM.forward cell 8 input memories).1 2 5 8 = true ∧
    isShape3 (LSTM.forward cell 8 input memories).2 1 2 16 = true := by
  have hmem2 : isShape3 memories 1 2 (2 * 8) = true := hmem
  have h := LSTM_forward_shape cell 8 2 5 3 hcell input memories hin hmem2
  exact ⟨rfl, h.1, h.2⟩

theorem C6_lstm_end_to_end_witness :
    (∀ (x : Vec) (hc : Vec × Vec),
      ((fun (_x : Vec) (_hc : Vec × Vec) =>
        (List.replicate 8 (0 : ℤ), List.replicate 8 (0 : ℤ))) x hc).1.length = 8 ∧
      ((fun (_x : Vec) (_hc : Vec × Vec) =>
        (List.replicate 8 (0 : ℤ), List.replicate 8 (0 : ℤ))) x hc).2.length = 8) ∧
    isShape3 (List.replicate 2 (List.replicate 5 (List.replicate 3 (0 : ℤ)))) 2 5 3 = true ∧
    isShape3 [List.replicate 2 (List.replicate 16 (0 : ℤ))] 1 2 16 = true ∧
    (LSTM.memory_size 16 = 16 ∧
     isShape3 (LSTM.forward (fun (_x : Vec) (_hc : Vec × Vec) =>
        (List.replicate 8 (0 : ℤ), List.replicate 8 (0 : ℤ))) 8
        (List.replicate 2 (List.replicate 5 (List.replicate 3 (0 : ℤ))))
        [List.replicate 2 (List.replicate 16 (0 : ℤ))]).1 2 5 8 = true ∧
     isShape3 (LSTM.forward (fun (_x : Vec) (_hc : Vec × Vec) =>
        (List.replicate 8 (0 : ℤ), List.replicate 8 (0 : ℤ))) 8
        (List.replicate 2 (List.replicate 5 (List.replicate 3 (0 : ℤ))))
        [List.replicate 2 (List.replicate 16 (0 : ℤ))]).2 1 2 16 = true) :=
  ⟨fun _ _ => ⟨rfl, rfl⟩, by decide, by decide,
   C6_lstm_end_to_end (fun _x _hc => (List.replicate 8 (0 : ℤ), List.replicate 8 (0 : ℤ)))
     (fun _ _ => ⟨rfl, rfl⟩)
     (List.replicate 2 (List.replicate 5 (List.replicate 3 (0 : ℤ))))
     [List.replicate 2 (List.replicate 16 (0 : ℤ))] (by decide) (by decide)⟩
